import Mathlib

/-!
Verification of the filesystem scanning core of a Python application
packaging tool (src/pyoxidizer/src/py_packaging/fsscan.rs).

Paths are modelled as lists of path components (each component a `String`);
the scan root is implicit, so an entry is identified by its path relative to
the scan root.  Rust byte-level string operations are modelled at the
character level, which coincides with the byte level for the comparisons
performed here (suffix tests, splitting at '.', lexicographic ordering of
valid UTF-8).  Panics in the Rust code are modelled as `Except.error` with
the panic message; filtered-out entries are `Except.ok none`.
-/

set_option maxRecDepth 8000

deriving instance DecidableEq for Except

namespace FsScan

/-- Lexicographic comparison of character lists by code point, mirroring the
byte-wise ordering Rust uses when comparing file names (UTF-8 byte order
agrees with code-point order). -/
def charListLt : List Char → List Char → Bool
  | [], [] => false
  | [], _ :: _ => true
  | _ :: _, [] => false
  | a :: as, b :: bs =>
    if a.toNat < b.toNat then true
    else if b.toNat < a.toNat then false
    else charListLt as bs

/-- Rust `OsStr::cmp` (less-than part) on file names. -/
def strLt (a b : String) : Bool := charListLt a.toList b.toList

/-- Rust `str::ends_with`. -/
def strEndsWith (s sfx : String) : Bool := sfx.toList.isSuffixOf s.toList

/-- Rust `str::starts_with`. -/
def strStartsWith (s p : String) : Bool := p.toList.isPrefixOf s.toList

/-- First `n` characters of a string: Rust slicing `s[0..n]` (on the inputs
used here the cut always falls on a character boundary). -/
def strTake (s : String) (n : Nat) : String := String.mk (s.toList.take n)

/-- Split a character list at its last '.', returning the parts before and
after it, or `none` when there is no '.'. -/
def splitAtLastDot : List Char → Option (List Char × List Char)
  | [] => none
  | c :: rest =>
    match splitAtLastDot rest with
    | some (b, a) => some (c :: b, a)
    | none => if c = '.' then some ([], rest) else none

/-- Rust `split_file_at_dot`: a file name's stem and extension.  A leading
'.' does not start an extension, and the special name ".." has no
extension. -/
def splitFileAtDot (f : String) : String × Option String :=
  if f = ".." then (f, none)
  else
    match splitAtLastDot f.toList with
    | none => (f, none)
    | some ([], _) => (f, none)
    | some (b, a) => (String.mk b, some (String.mk a))

/-- Rust `Path::file_stem` of a file name. -/
def fileStem (f : String) : String := (splitFileAtDot f).1

/-- Rust `Path::extension` of a file name. -/
def extnOf (f : String) : Option String := (splitFileAtDot f).2

/-- Rust `str::split('.')`, at the character-list level.  Always returns at
least one (possibly empty) part. -/
def splitOnDot : List Char → List (List Char)
  | [] => [[]]
  | c :: rest =>
    if c = '.' then [] :: splitOnDot rest
    else
      match splitOnDot rest with
      | [] => [[c]]
      | h :: t => (c :: h) :: t

/-- Rust `str::split('.')` on strings. -/
def strSplitDot (s : String) : List String :=
  (splitOnDot s.toList).map String.mk

/-- `itertools::join`: concatenate strings with a separator. -/
def joinSep (sep : String) : List String → String
  | [] => ""
  | [x] => x
  | x :: y :: xs => x ++ sep ++ joinSep sep (y :: xs)

/-- Membership test on a list of strings, mirroring `HashSet::contains`. -/
def containsStr (l : List String) (s : String) : Bool := l.any (fun x => x = s)

/-- `HashSet::insert`, modelled on lists; only membership is ever consumed. -/
def addPkg (pkg : Option String) (seen : List String) : List String :=
  match pkg with
  | some p => p :: seen
  | none => seen

/-! ## Data model

The resource record types.  `SourceModule`, `BytecodeModule`, `ResourceData`
and `DataLocation` live in the repository's `resource.rs`, which is not part
of the scanned sources; their shapes below are modelled from the spec
(§3 DATA MODEL): a source module carries a dotted name, a lazy content
location and an `is_package` flag; a bytecode module carries a dotted name,
an optimization level and a location; a data resource carries a
slash-separated full name, a dotted leaf package, a slash-separated relative
name and a location.  A `DataLocation::Path` is modelled as the path itself
(a component list). -/

/-- Modelled from the spec: bytecode optimization level `{Zero, One, Two}`
(`BytecodeOptimizationLevel` in `resource.rs`, absent from the sources). -/
inductive BytecodeOptimizationLevel
  | zero
  | one
  | two
deriving DecidableEq

/-- Modelled from the spec: `SourceModule { name, location, is_package }`
(`resource.rs`, absent from the sources). -/
structure SourceModule where
  name : String
  source : List String
  is_package : Bool
deriving DecidableEq

/-- Modelled from the spec: `BytecodeModule { name, optimization_level,
location }`; `BytecodeModule::from_path` stores the given name, level and
path (`resource.rs`, absent from the sources). -/
structure BytecodeModule where
  name : String
  optimize_level : BytecodeOptimizationLevel
  path : List String
deriving DecidableEq

/-- Modelled from the spec: `DataResource { full_name, leaf_package,
relative_name, location }` (`ResourceData` in `resource.rs`, absent from the
sources). -/
structure ResourceData where
  full_name : String
  leaf_package : String
  relative_name : String
  data : List String
deriving DecidableEq

/-- A pending resource file buffered between the two passes
(`ResourceFile` in `fsscan.rs`). -/
structure ResourceFile where
  full_path : List String
  relative_path : List String
deriving DecidableEq

/-- `PythonFileResource` from `fsscan.rs`. -/
inductive PythonFileResource
  | source (m : SourceModule)
  | bytecode (m : BytecodeModule)
  | extensionModule (package stem full_name : String) (path : List String)
      (extension_file_suffix : String)
  | resource (r : ResourceData)
  | resourceFile (r : ResourceFile)
  | eggFile (path : List String)
  | pthFile (path : List String)
  | other (package stem full_name : String) (path : List String)
deriving DecidableEq

/-- Suffix table (`PythonModuleSuffixes` in `distribution.rs`, consumed as
an opaque input; only the `extension` list is read by the scanner). -/
structure PythonModuleSuffixes where
  source : List String
  bytecode : List String
  debug_bytecode : List String
  optimized_bytecode : List String
  extension : List String
deriving DecidableEq

/-- The empty suffix table used by the repository's tests. -/
def emptySuffixes : PythonModuleSuffixes := ⟨[], [], [], [], []⟩

/-- Does a data resource record hold this variant? -/
def isDataRes : PythonFileResource → Bool
  | .resource _ => true
  | _ => false

/-- The panic message of the `.pyc` layout check in `resolve_dir_entry`. -/
def pycMsg (relStr : String) : String :=
  "encountered .pyc file with invalid path: " ++ relStr

/-! ## Entry classification

`resolve_dir_entry` (fsscan.rs lines 139-370) is split into the root
normalization of the raw relative path (lines 151-214) and the
classification of the normalized component list (lines 216-369), exactly as
the code is laid out.  `path` is the entry's raw relative path, standing for
the full filesystem path minus the constant scan root.  The classification
returns the classified resource together with the package name inserted
into `seen_packages` (the insertion the Rust code performs on `self`). -/

/-- Lines 216-369 of `resolve_dir_entry`: classify a root-normalized
component list.  `relStr` is the string form of the relative path as the
Rust code tracks it (not refreshed by the egg rewrite). -/
def classifyEntry (suffixes : PythonModuleSuffixes) (path : List String)
    (relStr : String) (components : List String) :
    Except String (Option (PythonFileResource × Option String)) :=
  let file_name := components.getLastD ""
  match suffixes.extension.find? (fun sfx => strEndsWith file_name sfx) with
  | some ext_suffix =>
    let package_parts := components.dropLast
    let package := joinSep "." package_parts
    let module_name := strTake file_name (file_name.toList.length - ext_suffix.toList.length)
    let stem := if module_name = "__init__" then "" else module_name
    let full_parts :=
      if module_name = "__init__" then package_parts else package_parts ++ [module_name]
    let full_module_name := joinSep "." full_parts
    let package := if package = "" then full_module_name else package
    .ok (some (.extensionModule package stem full_module_name path ext_suffix, some package))
  | none =>
    match extnOf file_name with
    | some "py" =>
      let package_parts := components.dropLast
      let package := joinSep "." package_parts
      let module_name := fileStem file_name
      let full_parts :=
        if module_name = "__init__" then package_parts else package_parts ++ [module_name]
      let full_module_name := joinSep "." full_parts
      let package := if package = "" then full_module_name else package
      .ok (some (.source ⟨full_module_name, path, strStartsWith file_name "__init__."⟩,
        some package))
    | some "pyc" =>
      if components.length < 2 then .error (pycMsg relStr)
      else if components.getD (components.length - 2) "" ≠ "__pycache__" then
        .ok (some (.other (joinSep "." components.dropLast) (components.getLastD "")
          (joinSep "." components) path, none))
      else
        let package_parts := components.dropLast.dropLast
        let package := joinSep "." package_parts
        let module_name_parts := strSplitDot (fileStem file_name)
        let module_name := joinSep "." module_name_parts.dropLast
        let full_parts :=
          if module_name = "__init__" then package_parts else package_parts ++ [module_name]
        let full_module_name := joinSep "." full_parts
        let package := if package = "" then full_module_name else package
        let level : BytecodeOptimizationLevel :=
          if strEndsWith relStr ".opt-1.pyc" then .one
          else if strEndsWith relStr ".opt-2.pyc" then .two
          else .zero
        .ok (some (.bytecode ⟨full_module_name, level, path⟩, some package))
    | some "egg" => .ok (some (.eggFile path, none))
    | some "pth" => .ok (some (.pthFile path, none))
    | _ => .ok (some (.resourceFile ⟨path, components⟩, none))

/-- Lines 181-214 of `resolve_dir_entry`: the unpacked-egg root rewrite,
applied to the components remaining after the site-packages rewrite.  The
returned string is the `rel_str` the Rust code carries into classification
(not refreshed by the egg rewrite, matching the code). -/
def eggSplit (components : List String) : Except String (Option (List String × String)) :=
  let relStr := joinSep "/" components
  if components = [] then .error "empty relative path inside site-packages"
  else
    let dirs := components.dropLast
    if dirs.any (fun p => strEndsWith p ".egg") then
      let k := dirs.findIdx (fun p => strEndsWith p ".egg")
      let components2 := components.drop (k + 1)
      if components2.headD "" = "EGG-INFO" then .ok none
      else .ok (some (components2, relStr))
    else .ok (some (components, relStr))

/-- Lines 140-214 of `resolve_dir_entry`: exclusion of metadata directories
and the site-packages / egg root rewrites.  Returns the normalized component
list and the `rel_str` the Rust code carries into classification, `none`
when the entry is excluded, or an error where the Rust code would panic. -/
def normalizeEntry (path : List String) : Except String (Option (List String × String)) :=
  match path with
  | [] => .error "unable to get relative path components"
  | c0 :: _ =>
    if strEndsWith c0 ".dist-info" then .ok none
    else if strEndsWith c0 ".egg-info" then .ok none
    else if c0 = "site-packages" then eggSplit (path.drop 1)
    else eggSplit path

/-- `PythonResourceIterator::resolve_dir_entry` (fsscan.rs lines 139-370). -/
def resolveDirEntry (suffixes : PythonModuleSuffixes) (path : List String) :
    Except String (Option (PythonFileResource × Option String)) :=
  match normalizeEntry path with
  | .error e => .error e
  | .ok none => .ok none
  | .ok (some (components, relStr)) => classifyEntry suffixes path relStr components

/-! ## Second pass: the resource address resolver

Lines 407-493 of `Iterator::next`.  The Rust loop keeps a shrinking vector
of directory components and a growing vector of relative components; it is
mirrored here with the remaining components stored deepest-first
(`revComps`), which is what popping from the end of the Rust vector
walks through. -/

/-- The candidate-package loop (fsscan.rs lines 460-472).  `revComps` holds
the not-yet-rejected directory components deepest-first; `relComps` is the
accumulated `relative_components` vector (basename first, then the popped
components). -/
def findLeafAux (seen : List String) : List String → List String →
    Option (String × String)
  | [], _ => none
  | c :: restRev, relComps =>
    let candidate := joinSep "." (c :: restRev).reverse
    if containsStr seen candidate then
      some (candidate, joinSep "/" relComps.reverse)
    else
      findLeafAux seen restRev (relComps ++ [c])

/-- The candidate-package search on the parent directory components (in
root-to-leaf order), starting from the accumulated relative components. -/
def findLeafPackage (seen : List String) (comps relComps : List String) :
    Option (String × String) :=
  findLeafAux seen comps.reverse relComps

/-- Resolution of one buffered resource file against the registry
(fsscan.rs lines 435-492): compute `full_name`, then the leaf package and
the package-relative name, or `none` when the file has no valid resource
address and is dropped. -/
def resolveResource (seen : List String) (r : ResourceFile) : Option ResourceData :=
  if r.relative_path = [] then none
  else
    let basename := r.relative_path.getLastD ""
    let full_name := joinSep "/" r.relative_path
    match findLeafPackage seen r.relative_path.dropLast [basename] with
    | none => none
    | some (pkg, rel) => some ⟨full_name, pkg, rel, r.full_path⟩

/-! ## The iterator

`Iterator::next` (fsscan.rs lines 376-494) walks remaining directory
entries, yields classified resources immediately, buffers pending resource
files, and once the walk is exhausted drains the buffer through the
resolver.  The state is the remaining entries plus the registry and the
buffer; draining the whole iterator is a fueled structural recursion (each
step consumes one unit of fuel, and `2 * pending + resources` steps always
suffice, see `drainFrom_eq`). -/

/-- Iterator state: remaining walker entries, `seen_packages`, and the
buffered `resources`. -/
structure IterState where
  pending : List (List String)
  seen : List String
  resources : List ResourceFile
deriving DecidableEq

/-- Collect every remaining item of the iterator, following
`Iterator::next` step by step: classify and yield or buffer while entries
remain, then drain the buffer through the resolver. -/
def drainFrom (suffixes : PythonModuleSuffixes) : Nat → IterState →
    Except String (List PythonFileResource)
  | 0, _ => .ok []
  | fuel + 1, st =>
    match st.pending with
    | e :: rest =>
      match resolveDirEntry suffixes e with
      | .error m => .error m
      | .ok none => drainFrom suffixes fuel ⟨rest, st.seen, st.resources⟩
      | .ok (some (res, pkg)) =>
        match res with
        | .resourceFile r =>
          drainFrom suffixes fuel ⟨rest, addPkg pkg st.seen, st.resources ++ [r]⟩
        | r =>
          (drainFrom suffixes fuel ⟨rest, addPkg pkg st.seen, st.resources⟩).map
            (fun out => r :: out)
    | [] =>
      match st.resources with
      | [] => .ok []
      | r :: rs =>
        match resolveResource st.seen r with
        | none => drainFrom suffixes fuel ⟨[], st.seen, rs⟩
        | some d =>
          (drainFrom suffixes fuel ⟨[], st.seen, rs⟩).map
            (fun out => .resource d :: out)

/-- A full scan: collect the entire iterator over the given walker entries
(`find_python_resources` followed by collecting, as the repository's tests
do). -/
def scan (suffixes : PythonModuleSuffixes) (entries : List (List String)) :
    Except String (List PythonFileResource) :=
  drainFrom suffixes (2 * entries.length + 1) ⟨entries, [], []⟩

/-! ## Phase decomposition

The first pass (classification, registry accumulation, buffering) and the
second pass (buffer resolution), as separate functions.  `drainFrom_eq`
below proves that the interleaved iterator equals their composition. -/

/-- The first pass over the walker entries: classified outputs in walker
order, final registry, and buffered resource files in buffering order. -/
def firstPassAux (suffixes : PythonModuleSuffixes) :
    List (List String) → List String → List ResourceFile →
    Except String (List PythonFileResource × List String × List ResourceFile)
  | [], seen, rs => .ok ([], seen, rs)
  | e :: rest, seen, rs =>
    match resolveDirEntry suffixes e with
    | .error m => .error m
    | .ok none => firstPassAux suffixes rest seen rs
    | .ok (some (res, pkg)) =>
      match res with
      | .resourceFile r => firstPassAux suffixes rest (addPkg pkg seen) (rs ++ [r])
      | r =>
        (firstPassAux suffixes rest (addPkg pkg seen) rs).map
          (fun out => (r :: out.1, out.2))

/-- The second pass: resolve the buffered resource files against the final
registry, dropping the unaddressable ones. -/
def secondPass (seen : List String) (rs : List ResourceFile) :
    List PythonFileResource :=
  rs.filterMap (fun r => (resolveResource seen r).map PythonFileResource.resource)

/-! ## Lemmas about the candidate-package loop -/

theorem findLeafAux_eq_some (seen : List String) (rc acc : List String) (i : Nat)
    (hi : i < rc.length)
    (hlt : ∀ j, j < i → containsStr seen (joinSep "." ((rc.drop j).reverse)) = false)
    (hit : containsStr seen (joinSep "." ((rc.drop i).reverse)) = true) :
    findLeafAux seen rc acc =
      some (joinSep "." ((rc.drop i).reverse), joinSep "/" ((acc ++ rc.take i).reverse)) := by
  induction i generalizing rc acc with
  | zero =>
    cases rc with
    | nil => simp at hi
    | cons c rest =>
      simp only [List.drop_zero, List.reverse_cons] at hit
      simp [findLeafAux, hit]
  | succ i ih =>
    cases rc with
    | nil => simp at hi
    | cons c rest =>
      have h0 : containsStr seen (joinSep "." ((c :: rest).reverse)) = false := by
        have := hlt 0 (Nat.succ_pos i)
        simpa using this
      simp only [findLeafAux, h0, Bool.false_eq_true, if_false]
      have hres := ih rest (acc ++ [c]) (by simpa using hi)
        (fun j hj => by simpa using hlt (j + 1) (Nat.succ_lt_succ hj))
        (by simpa using hit)
      rw [hres]
      simp [List.append_assoc]

theorem findLeafAux_eq_none (seen : List String) (rc acc : List String)
    (h : ∀ i, i < rc.length → containsStr seen (joinSep "." ((rc.drop i).reverse)) = false) :
    findLeafAux seen rc acc = none := by
  induction rc generalizing acc with
  | nil => rfl
  | cons c rest ih =>
    have h0 : containsStr seen (joinSep "." ((c :: rest).reverse)) = false := by
      simpa using h 0 (Nat.succ_pos _)
    simp only [findLeafAux, h0, Bool.false_eq_true, if_false]
    exact ih _ (fun i hi => by simpa using h (i + 1) (Nat.succ_lt_succ hi))

theorem findLeafAux_mem (seen : List String) (rc acc : List String) (p rel : String)
    (h : findLeafAux seen rc acc = some (p, rel)) : containsStr seen p = true := by
  induction rc generalizing acc with
  | nil => simp [findLeafAux] at h
  | cons c rest ih =>
    by_cases hc : containsStr seen (joinSep "." ((c :: rest).reverse)) = true
    · simp only [findLeafAux, hc, if_true] at h
      obtain ⟨h1, _⟩ := Prod.mk.injEq .. ▸ Option.some.injEq .. ▸ h
      exact h1 ▸ hc
    · simp only [findLeafAux, hc, if_false] at h
      exact ih _ h

/-! ## Lemmas about the resolution of one buffered resource -/

theorem resolveResource_eq_some (seen : List String) (fp ds : List String) (f : String)
    (k : Nat) (hk0 : 0 < k) (hk : k ≤ ds.length)
    (hmem : containsStr seen (joinSep "." (ds.take k)) = true)
    (hmax : ∀ j, k < j → j ≤ ds.length → containsStr seen (joinSep "." (ds.take j)) = false) :
    resolveResource seen ⟨fp, ds ++ [f]⟩ =
      some ⟨joinSep "/" (ds ++ [f]), joinSep "." (ds.take k),
        joinSep "/" (ds.drop k ++ [f]), fp⟩ := by
  have hdrop : ∀ j, (ds.reverse.drop j).reverse = ds.take (ds.length - j) := by
    intro j
    rw [List.drop_reverse, List.reverse_reverse]
  have htake : ∀ j, (ds.reverse.take j).reverse = ds.drop (ds.length - j) := by
    intro j
    rw [List.take_reverse, List.reverse_reverse]
  have hi : ds.length - k < ds.reverse.length := by
    rw [List.length_reverse]
    omega
  have key := findLeafAux_eq_some seen ds.reverse [f] (ds.length - k) hi
    (fun j hj => by
      rw [hdrop]
      exact hmax (ds.length - j) (by omega) (by omega))
    (by
      rw [hdrop]
      have : ds.length - (ds.length - k) = k := by omega
      rw [this]
      exact hmem)
  have h1 : (ds.reverse.drop (ds.length - k)).reverse = ds.take k := by
    rw [hdrop]
    congr 1
    omega
  have h2 : (([f] ++ ds.reverse.take (ds.length - k)) : List String).reverse =
      ds.drop k ++ [f] := by
    rw [List.reverse_append, htake]
    have : ds.length - (ds.length - k) = k := by omega
    rw [this]
    rfl
  rw [h1, h2] at key
  simp only [resolveResource, findLeafPackage]
  rw [if_neg (by simp)]
  simp only [List.getLastD_concat, List.dropLast_concat]
  rw [key]

theorem resolveResource_eq_none (seen : List String) (fp ds : List String) (f : String)
    (h : ∀ j, j ≤ ds.length → containsStr seen (joinSep "." (ds.take j)) = false) :
    resolveResource seen ⟨fp, ds ++ [f]⟩ = none := by
  have hdrop : ∀ j, (ds.reverse.drop j).reverse = ds.take (ds.length - j) := by
    intro j
    rw [List.drop_reverse, List.reverse_reverse]
  have key := findLeafAux_eq_none seen ds.reverse [f]
    (fun i _ => by
      rw [hdrop]
      exact h (ds.length - i) (by omega))
  simp only [resolveResource, findLeafPackage]
  rw [if_neg (by simp)]
  simp only [List.getLastD_concat, List.dropLast_concat]
  rw [key]

theorem resolveResource_leaf_mem (seen : List String) (r : ResourceFile) (d : ResourceData)
    (h : resolveResource seen r = some d) : containsStr seen d.leaf_package = true := by
  simp only [resolveResource, findLeafPackage] at h
  split at h
  · exact Option.noConfusion h
  · split at h
    · exact Option.noConfusion h
    next pkg rel hfl =>
      cases h
      exact findLeafAux_mem _ _ _ _ _ hfl

/-! ## Phase decomposition of the iterator -/

theorem drainFrom_nil_pending (suffixes : PythonModuleSuffixes) (seen : List String)
    (rs : List ResourceFile) (fuel : Nat) (hf : rs.length < fuel) :
    drainFrom suffixes fuel ⟨[], seen, rs⟩ = .ok (secondPass seen rs) := by
  induction rs generalizing fuel with
  | nil =>
    cases fuel with
    | zero => omega
    | succ f => simp [drainFrom, secondPass]
  | cons r rest ih =>
    cases fuel with
    | zero => omega
    | succ f =>
      simp only [drainFrom]
      cases hres : resolveResource seen r with
      | none =>
        rw [ih f (by simpa using Nat.lt_of_succ_lt_succ hf)]
        simp [secondPass, List.filterMap_cons, hres, Except.map]
      | some d =>
        rw [ih f (by simpa using Nat.lt_of_succ_lt_succ hf)]
        simp [secondPass, List.filterMap_cons, hres, Except.map]

theorem drainFrom_eq (suffixes : PythonModuleSuffixes) (es : List (List String))
    (seen : List String) (rs : List ResourceFile) (fuel : Nat)
    (hf : 2 * es.length + rs.length < fuel) :
    drainFrom suffixes fuel ⟨es, seen, rs⟩ =
      match firstPassAux suffixes es seen rs with
      | .error m => .error m
      | .ok (out, seenF, rsF) => .ok (out ++ secondPass seenF rsF) := by
  induction es generalizing seen rs fuel with
  | nil =>
    rw [drainFrom_nil_pending suffixes seen rs fuel (by omega)]
    simp [firstPassAux]
  | cons e rest ih =>
    cases fuel with
    | zero => omega
    | succ f =>
      simp only [drainFrom, firstPassAux]
      cases hres : resolveDirEntry suffixes e with
      | error m => rfl
      | ok o =>
        cases o with
        | none =>
          dsimp only
          rw [ih seen rs f (by simp at hf ⊢; omega)]
        | some v =>
          obtain ⟨res, pkg⟩ := v
          cases res
          case resourceFile r =>
            dsimp only
            rw [ih (addPkg pkg seen) (rs ++ [r]) f (by simp at hf ⊢; omega)]
          all_goals
            dsimp only
            rw [ih (addPkg pkg seen) rs f (by simp at hf ⊢; omega)]
            cases hfp : firstPassAux suffixes rest (addPkg pkg seen) rs with
            | error m => simp [Except.map]
            | ok out =>
              obtain ⟨out1, sF, qF⟩ := out
              simp [Except.map]

/-- A full scan is its first pass followed by the second pass over the final
registry and buffer. -/
theorem scan_decomp (suffixes : PythonModuleSuffixes) (entries : List (List String)) :
    scan suffixes entries =
      match firstPassAux suffixes entries [] [] with
      | .error m => .error m
      | .ok (out, seenF, rsF) => .ok (out ++ secondPass seenF rsF) := by
  exact drainFrom_eq suffixes entries [] [] (2 * entries.length + 1) (by simp)

/-! ## Shape lemmas about classification -/

theorem classifyEntry_not_dataRes (suffixes : PythonModuleSuffixes)
    (path : List String) (relStr : String) (comps : List String)
    (res : PythonFileResource) (pkg : Option String)
    (h : classifyEntry suffixes path relStr comps = .ok (some (res, pkg))) :
    isDataRes res = false := by
  simp only [classifyEntry] at h
  repeat' split at h
  all_goals first
    | (cases h; rfl)
    | exact Except.noConfusion h

theorem resolveDirEntry_not_dataRes (suffixes : PythonModuleSuffixes)
    (path : List String) (res : PythonFileResource) (pkg : Option String)
    (h : resolveDirEntry suffixes path = .ok (some (res, pkg))) :
    isDataRes res = false := by
  simp only [resolveDirEntry] at h
  split at h
  · exact Except.noConfusion h
  · exact Option.noConfusion (Except.ok.inj h)
  next comps relStr _ => exact classifyEntry_not_dataRes suffixes path relStr comps res pkg h

/-- Every first-pass output arises from classifying one of the walked
entries. -/
theorem firstPassAux_mem_src (suffixes : PythonModuleSuffixes)
    (es : List (List String)) (seen : List String) (rs : List ResourceFile)
    (out : List PythonFileResource) (seenF : List String) (rsF : List ResourceFile)
    (x : PythonFileResource)
    (h : firstPassAux suffixes es seen rs = .ok (out, seenF, rsF)) (hx : x ∈ out) :
    ∃ e ∈ es, ∃ pkg, resolveDirEntry suffixes e = .ok (some (x, pkg)) := by
  induction es generalizing seen rs out with
  | nil =>
    simp only [firstPassAux] at h
    cases h
    cases hx
  | cons e rest ih =>
    simp only [firstPassAux] at h
    split at h
    · exact Except.noConfusion h
    · obtain ⟨e', he', hres⟩ := ih _ _ _ h hx
      exact ⟨e', List.mem_cons_of_mem _ he', hres⟩
    next res pkg hres =>
      split at h
      · obtain ⟨e', he', hres'⟩ := ih _ _ _ h hx
        exact ⟨e', List.mem_cons_of_mem _ he', hres'⟩
      next r hnotrf =>
        cases hfp : firstPassAux suffixes rest (addPkg pkg seen) rs with
        | error m => rw [hfp] at h; exact Except.noConfusion h
        | ok o =>
          obtain ⟨o1, sF, qF⟩ := o
          rw [hfp] at h
          simp only [Except.map] at h
          cases h
          rcases List.mem_cons.mp hx with hxe | hxm
          · exact ⟨e, List.mem_cons_self e rest, pkg, hxe ▸ hres⟩
          · obtain ⟨e', he', hres'⟩ := ih _ _ _ hfp hxm
            exact ⟨e', List.mem_cons_of_mem _ he', hres'⟩

/-- The first pass never emits a data resource record. -/
theorem firstPassAux_not_dataRes (suffixes : PythonModuleSuffixes)
    (es : List (List String)) (seen : List String) (rs : List ResourceFile)
    (out : List PythonFileResource) (seenF : List String) (rsF : List ResourceFile)
    (h : firstPassAux suffixes es seen rs = .ok (out, seenF, rsF)) :
    ∀ x ∈ out, isDataRes x = false := by
  intro x hx
  obtain ⟨e, _, pkg, hres⟩ := firstPassAux_mem_src suffixes es seen rs out seenF rsF x h hx
  exact resolveDirEntry_not_dataRes suffixes e x pkg hres

/-- Second-pass outputs are exactly data resource records. -/
theorem secondPass_dataRes (seen : List String) (rs : List ResourceFile) :
    ∀ x ∈ secondPass seen rs, isDataRes x = true := by
  intro x hx
  simp only [secondPass, List.mem_filterMap] at hx
  obtain ⟨r, _, hr⟩ := hx
  cases hres : resolveResource seen r with
  | none => rw [hres] at hr; exact Option.noConfusion hr
  | some d =>
    rw [hres] at hr
    simp only [Option.map] at hr
    cases hr
    rfl

theorem getLastD_drop_of_ne_nil {l : List String} {n : Nat} (h : l.drop n ≠ []) :
    (l.drop n).getLastD "" = l.getLastD "" := by
  have hlen : ¬ l.length ≤ n := fun hle => h (List.drop_eq_nil_iff.mpr hle)
  rw [List.getLastD_eq_getLast?, List.getLastD_eq_getLast?, List.getLast?_drop, if_neg hlen]

/-- A successful egg rewrite starts from a nonempty component list and
yields a nonempty component list ending in the same file name. -/
theorem eggSplit_getLast (base : List String) (comps : List String) (relStr : String)
    (h : eggSplit base = .ok (some (comps, relStr))) :
    base ≠ [] ∧ comps ≠ [] ∧ comps.getLastD "" = base.getLastD "" := by
  simp only [eggSplit] at h
  split at h
  next hbe => exact Except.noConfusion h
  next hbne =>
    split at h
    next hegg =>
      split at h
      · exact Option.noConfusion (Except.ok.inj h)
      next =>
        obtain ⟨h1, _⟩ := Prod.mk.injEq .. ▸ Option.some.injEq .. ▸ Except.ok.inj h
        subst h1
        have hlt := List.findIdx_lt_length.mpr (List.any_eq_true.mp hegg)
        rw [List.length_dropLast] at hlt
        have hbl : 1 ≤ base.length := by
          cases hb : base with
          | nil => exact absurd hb hbne
          | cons x xs => simp [hb]
        have hdropne : base.drop (base.dropLast.findIdx
            (fun p => strEndsWith p ".egg") + 1) ≠ [] := by
          intro hnil
          rw [List.drop_eq_nil_iff] at hnil
          omega
        exact ⟨hbne, hdropne, getLastD_drop_of_ne_nil hdropne⟩
    next hnoegg =>
      obtain ⟨h1, _⟩ := Prod.mk.injEq .. ▸ Option.some.injEq .. ▸ Except.ok.inj h
      subst h1
      exact ⟨hbne, hbne, rfl⟩

/-- Root normalization yields a nonempty component list ending in the same
file name as the raw path. -/
theorem normalizeEntry_getLast (path : List String) (comps : List String) (relStr : String)
    (h : normalizeEntry path = .ok (some (comps, relStr))) :
    comps ≠ [] ∧ comps.getLastD "" = path.getLastD "" := by
  cases path with
  | nil => exact Except.noConfusion h
  | cons c0 rest =>
    simp only [normalizeEntry] at h
    split at h
    · exact Option.noConfusion (Except.ok.inj h)
    · split at h
      · exact Option.noConfusion (Except.ok.inj h)
      · split at h
        next hsp =>
          obtain ⟨hbne, hcne, hlast⟩ := eggSplit_getLast _ _ _ h
          refine ⟨hcne, ?_⟩
          rw [hlast]
          exact getLastD_drop_of_ne_nil hbne
        next hsp =>
          obtain ⟨_, hcne, hlast⟩ := eggSplit_getLast _ _ _ h
          exact ⟨hcne, hlast⟩

/-- Classification only yields a source module from the `.py` branch, whose
record stores the entry path and whose package flag is the
`starts_with "__init__."` test on the file name. -/
theorem classifyEntry_source (suffixes : PythonModuleSuffixes)
    (path : List String) (relStr : String) (comps : List String)
    (m : SourceModule) (pkg : Option String)
    (h : classifyEntry suffixes path relStr comps = .ok (some (.source m, pkg))) :
    m.source = path ∧ m.is_package = strStartsWith (comps.getLastD "") "__init__." := by
  simp only [classifyEntry] at h
  repeat' split at h
  all_goals first
    | exact Except.noConfusion h
    | (obtain ⟨h1, h2⟩ := Prod.mk.injEq .. ▸ Option.some.injEq .. ▸ Except.ok.inj h
       cases h1
       exact ⟨rfl, rfl⟩)
    | (exfalso
       exact PythonFileResource.noConfusion
        (Prod.mk.injEq .. ▸ Option.some.injEq .. ▸ Except.ok.inj h).1)

/-- `resolve_dir_entry` yields a source module exactly with the entry path
recorded and the package flag equal to the init-marker test on the file
name. -/
theorem resolveDirEntry_source (suffixes : PythonModuleSuffixes) (path : List String)
    (m : SourceModule) (pkg : Option String)
    (h : resolveDirEntry suffixes path = .ok (some (.source m, pkg))) :
    m.source = path ∧ m.is_package = strStartsWith (path.getLastD "") "__init__." := by
  simp only [resolveDirEntry] at h
  split at h
  · exact Except.noConfusion h
  · exact Option.noConfusion (Except.ok.inj h)
  next comps relStr hnorm =>
    obtain ⟨h1, h2⟩ := classifyEntry_source suffixes path relStr comps m pkg h
    obtain ⟨_, hlast⟩ := normalizeEntry_getLast path comps relStr hnorm
    exact ⟨h1, hlast ▸ h2⟩

/-! ## Helper lemmas about string joining and first-match search -/

theorem joinSep_append_singleton (sep : String) (l : List String) (x : String)
    (hl : l ≠ []) : joinSep sep (l ++ [x]) = joinSep sep l ++ sep ++ x := by
  induction l with
  | nil => exact absurd rfl hl
  | cons a rest ih =>
    cases rest with
    | nil => rfl
    | cons b t =>
      have key : joinSep sep ((a :: b :: t) ++ [x]) =
          a ++ sep ++ joinSep sep ((b :: t) ++ [x]) := rfl
      have key2 : joinSep sep (a :: b :: t) = a ++ sep ++ joinSep sep (b :: t) := rfl
      rw [key, ih (by simp), key2]
      simp [String.append_assoc]

theorem append_ne_empty_left (a b : String) (ha : a ≠ "") : a ++ b ≠ "" := by
  intro h
  apply ha
  apply String.ext
  have hd := congrArg String.data h
  rw [String.data_append] at hd
  exact List.append_eq_nil.mp hd |>.1

theorem joinSep_ne_empty (sep : String) (l : List String) (hl : l ≠ [])
    (h : ∀ c ∈ l, c ≠ "") : joinSep sep l ≠ "" := by
  cases l with
  | nil => exact absurd rfl hl
  | cons a rest =>
    cases rest with
    | nil => exact h a (List.mem_cons_self a [])
    | cons b t =>
      simp only [joinSep]
      exact append_ne_empty_left _ _
        (append_ne_empty_left _ _ (h a (List.mem_cons_self a _)))

theorem find?_first {α : Type} (p : α → Bool) (pre post : List α) (x : α)
    (hpre : ∀ a ∈ pre, p a = false) (hx : p x = true) :
    (pre ++ x :: post).find? p = some x := by
  induction pre with
  | nil => simpa [List.find?] using List.find?_cons_of_pos post hx
  | cons a rest ih =>
    have ha : p a = false := hpre a (List.mem_cons_self a rest)
    rw [List.cons_append, List.find?_cons_of_neg _ (by simp [ha])]
    exact ih (fun b hb => hpre b (List.mem_cons_of_mem _ hb))

/-- If any walked entry classifies to a fatal error, the first pass is an
error. -/
theorem firstPassAux_error_of_mem (suffixes : PythonModuleSuffixes)
    (es : List (List String)) (seen : List String) (rs : List ResourceFile)
    (e : List String) (m : String)
    (he : e ∈ es) (hres : resolveDirEntry suffixes e = .error m) :
    ∃ m', firstPassAux suffixes es seen rs = .error m' := by
  induction es generalizing seen rs with
  | nil => cases he
  | cons a rest ih =>
    rcases List.mem_cons.mp he with hae | hmem
    · subst hae
      refine ⟨m, ?_⟩
      simp [firstPassAux, hres]
    · simp only [firstPassAux]
      cases hra : resolveDirEntry suffixes a with
      | error m2 => exact ⟨m2, rfl⟩
      | ok o =>
        cases o with
        | none => exact ih seen rs hmem
        | some v =>
          obtain ⟨res, pkg⟩ := v
          cases res
          case resourceFile r => exact ih (addPkg pkg seen) (rs ++ [r]) hmem
          all_goals
            obtain ⟨m', hm'⟩ := ih (addPkg pkg seen) rs hmem
            dsimp only
            rw [hm']
            exact ⟨m', rfl⟩

/-! ## Claim theorems -/

/-- Claim C1: for every pending resource file with parent directory
components `ds` and filename `f`, the second pass assigns as `leaf_package`
the dot-join of the longest registered prefix of `ds` (candidates tested
from the full parent path downward), as `relative_name` the slash-join of
the components not consumed by that package followed by the filename, and
as `full_name` the relative path joined with `/` separators. -/
theorem c1_second_pass_addressing (seen : List String) (fp ds : List String)
    (f : String) (k : Nat) (hk0 : 0 < k) (hk : k ≤ ds.length)
    (hmem : containsStr seen (joinSep "." (ds.take k)) = true)
    (hmax : ∀ j, k < j → j ≤ ds.length →
      containsStr seen (joinSep "." (ds.take j)) = false) :
    resolveResource seen ⟨fp, ds ++ [f]⟩ =
      some ⟨joinSep "/" (ds ++ [f]), joinSep "." (ds.take k),
        joinSep "/" (ds.drop k ++ [f]), fp⟩ :=
  resolveResource_eq_some seen fp ds f k hk0 hk hmem hmax

theorem c1_witness :
    0 < 2 ∧ 2 ≤ 3 ∧
    resolveResource ["a", "a.b"] ⟨["a", "b", "c", "r.txt"], ["a", "b", "c"] ++ ["r.txt"]⟩ =
      some ⟨joinSep "/" (["a", "b", "c"] ++ ["r.txt"]),
        joinSep "." (List.take 2 ["a", "b", "c"]),
        joinSep "/" (List.drop 2 ["a", "b", "c"] ++ ["r.txt"]), ["a", "b", "c", "r.txt"]⟩ :=
  ⟨by decide, by decide,
    c1_second_pass_addressing ["a", "a.b"] ["a", "b", "c", "r.txt"] ["a", "b", "c"]
      "r.txt" 2 (by decide) (by decide) (by decide)
      (fun j hj1 hj2 => by
        have hj : j = 3 := by simp at hj2; omega
        subst hj
        decide)⟩

/-- Claim C2: every data resource the scan yields has a `leaf_package`
registered in the final package registry, and a buffered pending file none
of whose parent-prefix candidates (including the empty one) is registered
resolves to nothing: it is dropped without error. -/
theorem c2_leaf_package_registered :
    (∀ (suffixes : PythonModuleSuffixes) (entries : List (List String))
      (out out1 : List PythonFileResource) (seenF : List String)
      (rsF : List ResourceFile) (d : ResourceData),
      scan suffixes entries = .ok out →
      firstPassAux suffixes entries [] [] = .ok (out1, seenF, rsF) →
      PythonFileResource.resource d ∈ out →
      containsStr seenF d.leaf_package = true) ∧
    (∀ (seen : List String) (fp ds : List String) (f : String),
      (∀ j, j ≤ ds.length → containsStr seen (joinSep "." (ds.take j)) = false) →
      resolveResource seen ⟨fp, ds ++ [f]⟩ = none) := by
  constructor
  · intro suffixes entries out out1 seenF rsF d hscan hfp hmem
    rw [scan_decomp] at hscan
    rw [hfp] at hscan
    dsimp only at hscan
    cases hscan
    rcases List.mem_append.mp hmem with h1 | h2
    · have := firstPassAux_not_dataRes suffixes entries [] [] out1 seenF rsF hfp _ h1
      simp [isDataRes] at this
    · simp only [secondPass, List.mem_filterMap] at h2
      obtain ⟨r, _, hr⟩ := h2
      cases hres : resolveResource seenF r with
      | none => rw [hres] at hr; exact Option.noConfusion hr
      | some d' =>
        rw [hres] at hr
        simp only [Option.map] at hr
        have hd : d' = d := by
          have := Option.some.inj hr
          exact PythonFileResource.resource.inj this
        exact hd ▸ resolveResource_leaf_mem seenF r d' hres
  · intro seen fp ds f h
    exact resolveResource_eq_none seen fp ds f h

theorem c2_witness :
    containsStr ["foo"] (ResourceData.leaf_package
      ⟨"foo/r.txt", "foo", "r.txt", ["foo", "r.txt"]⟩) = true ∧
    resolveResource [] ⟨["a", "b.txt"], ["a"] ++ ["b.txt"]⟩ = none :=
  ⟨c2_leaf_package_registered.1 emptySuffixes
      [["foo", "__init__.py"], ["foo", "r.txt"]]
      [.source ⟨"foo", ["foo", "__init__.py"], true⟩,
       .resource ⟨"foo/r.txt", "foo", "r.txt", ["foo", "r.txt"]⟩]
      [.source ⟨"foo", ["foo", "__init__.py"], true⟩]
      ["foo"] [⟨["foo", "r.txt"], ["foo", "r.txt"]⟩]
      ⟨"foo/r.txt", "foo", "r.txt", ["foo", "r.txt"]⟩
      (by decide) (by decide) (by decide),
   c2_leaf_package_registered.2 [] ["a", "b.txt"] ["a"] "b.txt"
      (fun j hj => rfl)⟩

/-- Claim C3 counterexample: scanning the single entry
`pkg/__init__.tar.py` yields a source module whose `is_package` flag is
true although the file name's stem is `__init__.tar`, not the init marker,
refuting the claimed equivalence of `is_package` with stem equality. -/
theorem c3_counterexample :
    scan emptySuffixes [["pkg", "__init__.tar.py"]] =
      .ok [.source ⟨"pkg.__init__.tar", ["pkg", "__init__.tar.py"], true⟩] ∧
    fileStem "__init__.tar.py" ≠ "__init__" := by
  constructor
  · decide
  · decide

/-- Claim C3 (amended): every source module yielded by the scan has
`is_package` true exactly when its file name starts with `__init__.`
(the stem-equality reading fails on names like `__init__.tar.py`). -/
theorem c3_amended (suffixes : PythonModuleSuffixes) (entries : List (List String))
    (out : List PythonFileResource) (m : SourceModule)
    (hscan : scan suffixes entries = .ok out)
    (hmem : PythonFileResource.source m ∈ out) :
    m.is_package = strStartsWith (m.source.getLastD "") "__init__." := by
  rw [scan_decomp] at hscan
  cases hfp : firstPassAux suffixes entries [] [] with
  | error e => rw [hfp] at hscan; exact Except.noConfusion hscan
  | ok v =>
    obtain ⟨out1, seenF, rsF⟩ := v
    rw [hfp] at hscan
    dsimp only at hscan
    cases hscan
    rcases List.mem_append.mp hmem with h1 | h2
    · obtain ⟨e, _, pkg, hres⟩ := firstPassAux_mem_src suffixes entries [] [] out1
        seenF rsF _ hfp h1
      obtain ⟨hsrc, hpkg⟩ := resolveDirEntry_source suffixes e m pkg hres
      rw [hsrc]
      exact hpkg
    · have := secondPass_dataRes seenF rsF _ h2
      simp [isDataRes] at this

theorem c3_witness :
    SourceModule.is_package ⟨"foo", ["foo", "__init__.py"], true⟩ =
      strStartsWith ((["foo", "__init__.py"] : List String).getLastD "") "__init__." :=
  c3_amended emptySuffixes [["foo", "__init__.py"]]
    [.source ⟨"foo", ["foo", "__init__.py"], true⟩]
    ⟨"foo", ["foo", "__init__.py"], true⟩ (by decide) (by decide)

/-- Claim C4 counterexample: the `.pyc` entry `foo.pyc` has a single path
component, and classification is a fatal error (the Rust code panics), not
an `Other` record as the claim states. -/
theorem c4_counterexample :
    resolveDirEntry emptySuffixes ["foo.pyc"] = .error (pycMsg "foo.pyc") := by
  decide

/-- Claim C4 (amended): a `.pyc` entry (not matched by the extension suffix
table) whose normalized path has at least two components and whose parent
component is not `__pycache__` is classified as an `Other` record with
package the dot-joined parent components, full name the dot-joined
components and stem the file name; with fewer than two components
classification is instead a fatal error that aborts the scan. -/
theorem c4_amended (suffixes : PythonModuleSuffixes) (path comps : List String)
    (relStr : String)
    (hnorm : normalizeEntry path = .ok (some (comps, relStr)))
    (hsfx : suffixes.extension.find?
      (fun sfx => strEndsWith (comps.getLastD "") sfx) = none)
    (hpyc : extnOf (comps.getLastD "") = some "pyc") :
    (2 ≤ comps.length → comps.getD (comps.length - 2) "" ≠ "__pycache__" →
      resolveDirEntry suffixes path =
        .ok (some (.other (joinSep "." comps.dropLast) (comps.getLastD "")
          (joinSep "." comps) path, none))) ∧
    (comps.length < 2 → resolveDirEntry suffixes path = .error (pycMsg relStr)) := by
  have hres : resolveDirEntry suffixes path = classifyEntry suffixes path relStr comps := by
    simp [resolveDirEntry, hnorm]
  constructor
  · intro h2 hpar
    rw [hres]
    simp only [classifyEntry, hsfx, hpyc]
    rw [if_neg (by omega), if_pos hpar]
  · intro h2
    rw [hres]
    simp only [classifyEntry, hsfx, hpyc]
    rw [if_pos h2]

theorem c4_witness :
    (2 ≤ (["acme", "foo.pyc"] : List String).length →
      (["acme", "foo.pyc"] : List String).getD
        ((["acme", "foo.pyc"] : List String).length - 2) "" ≠ "__pycache__" →
      resolveDirEntry emptySuffixes ["acme", "foo.pyc"] =
        .ok (some (.other (joinSep "." (["acme", "foo.pyc"] : List String).dropLast)
          ((["acme", "foo.pyc"] : List String).getLastD "")
          (joinSep "." ["acme", "foo.pyc"]) ["acme", "foo.pyc"], none))) ∧
    ((["acme", "foo.pyc"] : List String).length < 2 →
      resolveDirEntry emptySuffixes ["acme", "foo.pyc"] =
        .error (pycMsg "acme/foo.pyc")) :=
  c4_amended emptySuffixes ["acme", "foo.pyc"] ["acme", "foo.pyc"] "acme/foo.pyc"
    (by decide) (by decide) (by decide)

/-- Claim C5: for a normalized entry, classification aborts with the `.pyc`
panic message exactly when the entry is a `.pyc` file (not matched by the
extension suffix table) whose normalized relative path has fewer than two
components; and an entry whose classification is any fatal error makes the
whole scan abort — it never returns a partial result. -/
theorem c5_pyc_fatal :
    (∀ (suffixes : PythonModuleSuffixes) (path comps : List String) (relStr : String),
      normalizeEntry path = .ok (some (comps, relStr)) →
      (resolveDirEntry suffixes path = .error (pycMsg relStr) ↔
        (suffixes.extension.find?
          (fun sfx => strEndsWith (comps.getLastD "") sfx) = none ∧
         extnOf (comps.getLastD "") = some "pyc" ∧ comps.length < 2))) ∧
    (∀ (suffixes : PythonModuleSuffixes) (entries : List (List String))
      (e : List String) (m : String),
      e ∈ entries → resolveDirEntry suffixes e = .error m →
      ∀ out, scan suffixes entries ≠ .ok out) := by
  constructor
  · intro suffixes path comps relStr hnorm
    have hres : resolveDirEntry suffixes path = classifyEntry suffixes path relStr comps := by
      simp [resolveDirEntry, hnorm]
    rw [hres]
    constructor
    · intro h
      simp only [classifyEntry] at h
      split at h
      · exact Except.noConfusion h
      next hfind =>
        split at h
        · exact Except.noConfusion h
        next hext =>
          split at h
          next hlt => exact ⟨hfind, hext, hlt⟩
          next hge =>
            split at h
            · exact Except.noConfusion h
            · exact Except.noConfusion h
        · exact Except.noConfusion h
        · exact Except.noConfusion h
        · exact Except.noConfusion h
    · rintro ⟨hfind, hext, hlt⟩
      simp only [classifyEntry, hfind, hext]
      rw [if_pos hlt]
  · intro suffixes entries e m hmem hres out hscan
    obtain ⟨m', hm'⟩ := firstPassAux_error_of_mem suffixes entries [] [] e m hmem hres
    rw [scan_decomp, hm'] at hscan
    exact Except.noConfusion hscan

theorem c5_witness :
    resolveDirEntry emptySuffixes ["foo.pyc"] = .error (pycMsg "foo.pyc") ↔
      (emptySuffixes.extension.find?
        (fun sfx => strEndsWith ((["foo.pyc"] : List String).getLastD "") sfx) = none ∧
       extnOf ((["foo.pyc"] : List String).getLastD "") = some "pyc" ∧
       (["foo.pyc"] : List String).length < 2) :=
  c5_pyc_fatal.1 emptySuffixes ["foo.pyc"] ["foo.pyc"] "foo.pyc" (by decide)

/-! ## Spec-side formulas for the extension-module claim (C6)

These definitions follow the claim's words, to be compared with the code's
computation. -/

/-- Claim formula: the module name is the file name with the matched suffix
removed. -/
def claimModuleName (fn sfx : String) : String :=
  strTake fn (fn.toList.length - sfx.toList.length)

/-- Amended claim formula for `full_name`: the dot-join of the parent
components followed by `.` and the module name when there is at least one
parent component, the module name alone when there is none, and just the
parent join for an init-marker module. -/
def claimFullName (parents : List String) (mn : String) : String :=
  if mn = "__init__" then joinSep "." parents
  else if parents = [] then mn
  else joinSep "." parents ++ "." ++ mn

/-- Claim formula for `package`: the dot-joined parent components, or the
full name when that join is empty. -/
def claimPackage (parents : List String) (mn : String) : String :=
  if joinSep "." parents = "" then claimFullName parents mn
  else joinSep "." parents

/-- Claim formula for `stem`: empty for an init-marker module, otherwise
the module name. -/
def claimStem (mn : String) : String :=
  if mn = "__init__" then "" else mn

theorem code_fullname_eq_claim (parents : List String) (mn : String) :
    joinSep "." (if mn = "__init__" then parents else parents ++ [mn]) =
      claimFullName parents mn := by
  by_cases hinit : mn = "__init__"
  · simp [hinit, claimFullName]
  · rw [if_neg hinit, claimFullName, if_neg hinit]
    by_cases hp : parents = []
    · subst hp
      simp [joinSep]
    · rw [if_neg hp, joinSep_append_singleton _ _ _ hp]

/-- Claim C6 counterexample: with suffix table `[".so"]`, the root-level
entry `foo.so` classifies to an extension module with `full_name = "foo"`,
while the claim's formula `package ++ "." ++ module_name` demands
`"foo.foo"`. -/
theorem c6_counterexample :
    resolveDirEntry ⟨[], [], [], [], [".so"]⟩ ["foo.so"] =
      .ok (some (.extensionModule "foo" "foo" "foo" ["foo.so"] ".so", some "foo")) ∧
    "foo" ≠ "foo" ++ "." ++ "foo" := by
  constructor
  · decide
  · decide

/-- Claim C6 (amended): when the file name ends with a suffix of the
extension table, the first matching suffix in table order wins, and the
resulting extension module record carries that suffix, the claim's stem and
package formulas, and the amended full-name formula: `package + "." +
module_name` reads as the dot-join of the parent components followed by
`"." + module_name` when there are parent components, and as plain
`module_name` when there are none. -/
theorem c6_amended (suffixes : PythonModuleSuffixes) (path comps : List String)
    (relStr : String) (pre post : List String) (sfx : String)
    (hnorm : normalizeEntry path = .ok (some (comps, relStr)))
    (htab : suffixes.extension = pre ++ sfx :: post)
    (hpre : ∀ s ∈ pre, strEndsWith (comps.getLastD "") s = false)
    (hsfx : strEndsWith (comps.getLastD "") sfx = true) :
    resolveDirEntry suffixes path =
      .ok (some (.extensionModule
        (claimPackage comps.dropLast (claimModuleName (comps.getLastD "") sfx))
        (claimStem (claimModuleName (comps.getLastD "") sfx))
        (claimFullName comps.dropLast (claimModuleName (comps.getLastD "") sfx))
        path sfx,
        some (claimPackage comps.dropLast (claimModuleName (comps.getLastD "") sfx)))) := by
  have hfind : suffixes.extension.find?
      (fun s => strEndsWith (comps.getLastD "") s) = some sfx := by
    rw [htab]
    exact find?_first _ pre post sfx hpre hsfx
  have hres : resolveDirEntry suffixes path = classifyEntry suffixes path relStr comps := by
    simp [resolveDirEntry, hnorm]
  rw [hres]
  simp only [classifyEntry, hfind]
  have hmn : strTake (comps.getLastD "")
      ((comps.getLastD "").toList.length - sfx.toList.length) =
      claimModuleName (comps.getLastD "") sfx := rfl
  rw [hmn]
  rw [code_fullname_eq_claim comps.dropLast (claimModuleName (comps.getLastD "") sfx)]
  have hP : (if joinSep "." comps.dropLast = ""
      then claimFullName comps.dropLast (claimModuleName (comps.getLastD "") sfx)
      else joinSep "." comps.dropLast) =
      claimPackage comps.dropLast (claimModuleName (comps.getLastD "") sfx) := rfl
  rw [hP]
  have hS : (if claimModuleName (comps.getLastD "") sfx = "__init__"
      then "" else claimModuleName (comps.getLastD "") sfx) =
      claimStem (claimModuleName (comps.getLastD "") sfx) := rfl
  rw [hS]

theorem c6_witness :
    resolveDirEntry ⟨[], [], [], [], [".cp37-win_amd64.pyd", ".so"]⟩ ["mk", "bar.so"] =
      .ok (some (.extensionModule
        (claimPackage (["mk", "bar.so"] : List String).dropLast
          (claimModuleName ((["mk", "bar.so"] : List String).getLastD "") ".so"))
        (claimStem (claimModuleName ((["mk", "bar.so"] : List String).getLastD "") ".so"))
        (claimFullName (["mk", "bar.so"] : List String).dropLast
          (claimModuleName ((["mk", "bar.so"] : List String).getLastD "") ".so"))
        ["mk", "bar.so"] ".so",
        some (claimPackage (["mk", "bar.so"] : List String).dropLast
          (claimModuleName ((["mk", "bar.so"] : List String).getLastD "") ".so")))) :=
  c6_amended ⟨[], [], [], [], [".cp37-win_amd64.pyd", ".so"]⟩ ["mk", "bar.so"]
    ["mk", "bar.so"] "mk/bar.so" [".cp37-win_amd64.pyd"] [] ".so"
    (by decide) (by decide) (by decide) (by decide)

/-- Claim C7: a successful scan's output is every directly-classified entry
(first pass, in walker order) followed by every resolved data resource (in
buffering order); every data resource record sits in the second block, so
none precedes a directly-classified entry. -/
theorem c7_output_order (suffixes : PythonModuleSuffixes) (entries : List (List String))
    (out direct : List PythonFileResource) (seenF : List String)
    (rsF : List ResourceFile)
    (hscan : scan suffixes entries = .ok out)
    (hfp : firstPassAux suffixes entries [] [] = .ok (direct, seenF, rsF)) :
    out = direct ++ secondPass seenF rsF ∧
    (∀ x ∈ direct, isDataRes x = false) ∧
    (∀ x ∈ secondPass seenF rsF, isDataRes x = true) := by
  rw [scan_decomp] at hscan
  rw [hfp] at hscan
  dsimp only at hscan
  cases hscan
  exact ⟨rfl,
    firstPassAux_not_dataRes suffixes entries [] [] direct seenF rsF hfp,
    secondPass_dataRes seenF rsF⟩

theorem c7_witness :
    ([.source ⟨"foo", ["foo", "__init__.py"], true⟩,
      .resource ⟨"foo/r.txt", "foo", "r.txt", ["foo", "r.txt"]⟩]
        : List PythonFileResource) =
      [.source ⟨"foo", ["foo", "__init__.py"], true⟩] ++
        secondPass ["foo"] [⟨["foo", "r.txt"], ["foo", "r.txt"]⟩] ∧
    (∀ x ∈ ([.source ⟨"foo", ["foo", "__init__.py"], true⟩]
        : List PythonFileResource), isDataRes x = false) ∧
    (∀ x ∈ secondPass ["foo"] [⟨["foo", "r.txt"], ["foo", "r.txt"]⟩],
      isDataRes x = true) :=
  c7_output_order emptySuffixes [["foo", "__init__.py"], ["foo", "r.txt"]]
    [.source ⟨"foo", ["foo", "__init__.py"], true⟩,
     .resource ⟨"foo/r.txt", "foo", "r.txt", ["foo", "r.txt"]⟩]
    [.source ⟨"foo", ["foo", "__init__.py"], true⟩]
    ["foo"] [⟨["foo", "r.txt"], ["foo", "r.txt"]⟩]
    (by decide) (by decide)

/-! ## Plumbing for claim C9: root-level `.py` files -/

theorem splitAtLastDot_append_nodot (l r : List Char) (hr : splitAtLastDot r = none) :
    splitAtLastDot (l ++ '.' :: r) = some (l, r) := by
  induction l with
  | nil => simp [splitAtLastDot, hr]
  | cons c cs ih => simp [splitAtLastDot, ih]

/-- Appending `.py` to a nonempty stem yields extension `py` and that stem,
under Rust's file-name splitting rules. -/
theorem extnOf_append_py (stem : String) (hne : stem ≠ "") :
    extnOf (stem ++ ".py") = some "py" ∧ fileStem (stem ++ ".py") = stem := by
  have hdd : stem ++ ".py" ≠ ".." := by
    intro h
    have hd := congrArg String.data h
    rw [String.data_append] at hd
    have hlen := congrArg List.length hd
    rw [List.length_append] at hlen
    have h3 : (".py" : String).data.length = 3 := rfl
    have h2 : (".." : String).data.length = 2 := rfl
    rw [h3, h2] at hlen
    omega
  have hdata : (stem ++ ".py").toList = stem.toList ++ ('.' :: ['p', 'y']) := by
    show (stem ++ ".py").data = _
    rw [String.data_append]
    rfl
  have hsplit := splitAtLastDot_append_nodot stem.toList ['p', 'y'] (by rfl)
  have hnn : stem.toList ≠ [] := by
    intro h0
    exact hne (String.ext h0)
  unfold extnOf fileStem splitFileAtDot
  rw [if_neg hdd, hdata, hsplit]
  cases hst : stem.toList with
  | nil => exact absurd hst hnn
  | cons a as =>
    constructor
    · rfl
    · show String.mk (a :: as) = stem
      rw [← hst]
      rfl

/-- Claim C9 (implicit): classifying a root-level `.py` file whose stem is
not the init marker registers the module's own full name as a package (the
`some stem` insertion below) although the module is not a package, and
consequently scanning that file next to a pending resource file inside a
sibling directory of the same name yields the resource with the module name
as its leaf package. -/
theorem c9_root_module_registers (suffixes : PythonModuleSuffixes) (stem f : String)
    (hne : stem ≠ "")
    (hinit : stem ≠ "__init__")
    (hsfx1 : suffixes.extension.find? (fun s => strEndsWith (stem ++ ".py") s) = none)
    (hnotinit : strStartsWith (stem ++ ".py") "__init__." = false)
    (hnodi : strEndsWith (stem ++ ".py") ".dist-info" = false)
    (hnoei : strEndsWith (stem ++ ".py") ".egg-info" = false)
    (hnosp : stem ++ ".py" ≠ "site-packages")
    (hstemdi : strEndsWith stem ".dist-info" = false)
    (hstemei : strEndsWith stem ".egg-info" = false)
    (hstemsp : stem ≠ "site-packages")
    (hstemegg : strEndsWith stem ".egg" = false)
    (hsfx2 : suffixes.extension.find? (fun s => strEndsWith f s) = none)
    (hf1 : extnOf f ≠ some "py") (hf2 : extnOf f ≠ some "pyc")
    (hf3 : extnOf f ≠ some "egg") (hf4 : extnOf f ≠ some "pth") :
    resolveDirEntry suffixes [stem ++ ".py"] =
      .ok (some (.source ⟨stem, [stem ++ ".py"], false⟩, some stem)) ∧
    scan suffixes [[stem ++ ".py"], [stem, f]] =
      .ok [.source ⟨stem, [stem ++ ".py"], false⟩,
        .resource ⟨stem ++ "/" ++ f, stem, f, [stem, f]⟩] := by
  have hext1 := extnOf_append_py stem hne
  have hnorm1 : normalizeEntry [stem ++ ".py"] =
      .ok (some ([stem ++ ".py"], joinSep "/" [stem ++ ".py"])) := by
    simp only [normalizeEntry]
    rw [if_neg (by simp [hnodi]), if_neg (by simp [hnoei]), if_neg hnosp]
    simp only [eggSplit]
    rw [if_neg (by simp)]
    simp
  have hsrc : resolveDirEntry suffixes [stem ++ ".py"] =
      .ok (some (.source ⟨stem, [stem ++ ".py"], false⟩, some stem)) := by
    simp only [resolveDirEntry, hnorm1, classifyEntry, List.getLastD_cons,
      List.getLastD_nil, hsfx1, hext1.1, hext1.2, hinit, hnotinit, joinSep,
      List.dropLast_single]
    simp
  have hnorm2 : normalizeEntry [stem, f] =
      .ok (some ([stem, f], joinSep "/" [stem, f])) := by
    simp only [normalizeEntry]
    rw [if_neg (by simp [hstemdi]), if_neg (by simp [hstemei]), if_neg hstemsp]
    simp [eggSplit, hstemegg]
  have hpend : resolveDirEntry suffixes [stem, f] =
      .ok (some (.resourceFile ⟨[stem, f], [stem, f]⟩, none)) := by
    simp only [resolveDirEntry, hnorm2, classifyEntry, List.getLastD_cons,
      List.getLastD_nil, hsfx2]
  refine ⟨hsrc, ?_⟩
  rw [scan_decomp]
  have h1 : firstPassAux suffixes [[stem ++ ".py"], [stem, f]] [] [] =
      .ok ([.source ⟨stem, [stem ++ ".py"], false⟩], [stem],
        [⟨[stem, f], [stem, f]⟩]) := by
    simp only [firstPassAux, hsrc, hpend]
    rfl
  rw [h1]
  have h2 : resolveResource [stem] ⟨[stem, f], [stem, f]⟩ =
      some ⟨stem ++ "/" ++ f, stem, f, [stem, f]⟩ := by
    have hsp : ([stem, f] : List String) = [stem] ++ [f] := rfl
    have := resolveResource_eq_some [stem] [stem, f] [stem] f 1
      (by omega) (by simp)
      (by simp [containsStr, joinSep])
      (fun j hj1 hj2 => by simp at hj2; omega)
    rw [← hsp] at this
    simpa [joinSep] using this
  dsimp only
  simp [secondPass, h2]

theorem c9_witness :
    resolveDirEntry emptySuffixes ["foo" ++ ".py"] =
      .ok (some (.source ⟨"foo", ["foo" ++ ".py"], false⟩, some "foo")) ∧
    scan emptySuffixes [["foo" ++ ".py"], ["foo", "data.txt"]] =
      .ok [.source ⟨"foo", ["foo" ++ ".py"], false⟩,
        .resource ⟨"foo" ++ "/" ++ "data.txt", "foo", "data.txt",
          ["foo", "data.txt"]⟩] :=
  c9_root_module_registers emptySuffixes "foo" "data.txt"
    (by decide) (by decide) (by decide) (by decide) (by decide) (by decide)
    (by decide) (by decide) (by decide) (by decide) (by decide) (by decide)
    (by decide) (by decide) (by decide) (by decide)

/-- Claim C10 (implicit): the `.dist-info`/`.egg-info` exclusion is tested
only against the first component of the raw relative path, before the
site-packages rewrite, and is not re-applied afterwards: a file under
`site-packages/<x>.dist-info/` (or `<x>.egg-info/`) is not excluded but
processed as an ordinary entry and buffered as a pending resource file. -/
theorem c10_metadata_under_site_packages (suffixes : PythonModuleSuffixes)
    (x f : String)
    (hx : strEndsWith x ".dist-info" = true ∨ strEndsWith x ".egg-info" = true)
    (hxegg : strEndsWith x ".egg" = false)
    (hsfx : suffixes.extension.find? (fun s => strEndsWith f s) = none)
    (hf1 : extnOf f ≠ some "py") (hf2 : extnOf f ≠ some "pyc")
    (hf3 : extnOf f ≠ some "egg") (hf4 : extnOf f ≠ some "pth") :
    resolveDirEntry suffixes ["site-packages", x, f] =
      .ok (some (.resourceFile ⟨["site-packages", x, f], [x, f]⟩, none)) := by
  have hnorm : normalizeEntry ["site-packages", x, f] =
      .ok (some ([x, f], joinSep "/" [x, f])) := by
    simp only [normalizeEntry]
    rw [if_neg (by decide), if_neg (by decide), if_pos trivial]
    simp [eggSplit, hxegg]
  simp only [resolveDirEntry, hnorm, classifyEntry, List.getLastD_cons,
    List.getLastD_nil, hsfx]

theorem c10_witness :
    resolveDirEntry emptySuffixes ["site-packages", "foo.dist-info", "METADATA"] =
      .ok (some (.resourceFile ⟨["site-packages", "foo.dist-info", "METADATA"],
        ["foo.dist-info", "METADATA"]⟩, none)) :=
  c10_metadata_under_site_packages emptySuffixes "foo.dist-info" "METADATA"
    (Or.inl (by decide)) (by decide) (by decide)
    (by decide) (by decide) (by decide) (by decide)

/-! ## The sorted tree walker (claim C8)

`PythonResourceIterator::new` (fsscan.rs lines 115-137) wraps `walkdir`
with `sort_by(|a, b| a.file_name().cmp(b.file_name()))` and filters out
directories: the walk yields each directory's children in ascending
file-name order, depth first.  A directory tree is modelled as a nested
inductive whose `children` lists carry the arbitrary order in which the
operating system enumerates a directory; the walker sorts every level, so
trees equal up to enumeration order (same canonical form) walk — and
scan — identically. -/

inductive FSEntry
  | file (name : String)
  | dir (name : String) (children : List FSEntry)

def entryName : FSEntry → String
  | .file n => n
  | .dir n _ => n

/-- Stable insertion by ascending file name (`sort_by` on names). -/
def insertByName (e : FSEntry) : List FSEntry → List FSEntry
  | [] => [e]
  | x :: xs =>
    if strLt (entryName x) (entryName e) then x :: insertByName e xs
    else e :: x :: xs

/-- Stable insertion sort of a directory's children by file name. -/
def sortByName : List FSEntry → List FSEntry
  | [] => []
  | x :: xs => insertByName x (sortByName xs)

theorem mem_insertByName (e x : FSEntry) (l : List FSEntry)
    (h : x ∈ insertByName e l) : x = e ∨ x ∈ l := by
  induction l with
  | nil =>
    simp only [insertByName, List.mem_singleton] at h
    exact Or.inl h
  | cons a as ih =>
    simp only [insertByName] at h
    split at h
    · rcases List.mem_cons.mp h with h1 | h2
      · exact Or.inr (h1 ▸ List.mem_cons_self a as)
      · rcases ih h2 with h3 | h4
        · exact Or.inl h3
        · exact Or.inr (List.mem_cons_of_mem _ h4)
    · rcases List.mem_cons.mp h with h1 | h2
      · exact Or.inl h1
      · exact Or.inr h2

theorem mem_sortByName (x : FSEntry) (l : List FSEntry)
    (h : x ∈ sortByName l) : x ∈ l := by
  induction l with
  | nil => simp [sortByName] at h
  | cons a as ih =>
    simp only [sortByName] at h
    rcases mem_insertByName a x (sortByName as) h with h1 | h2
    · exact h1 ▸ List.mem_cons_self a as
    · exact List.mem_cons_of_mem _ (ih h2)

/-- The relative file paths of the sorted walk below an entry, each
prefixed with the entry's own name. -/
def walkPaths : FSEntry → List (List String)
  | .file n => [[n]]
  | .dir n cs =>
    (((sortByName cs).attach.map
      (fun c => (walkPaths c.1).map (fun p => n :: p)))).flatten
termination_by e => sizeOf e
decreasing_by
  have h3 := List.sizeOf_lt_of_mem (mem_sortByName _ _ c.2)
  simp only [FSEntry.dir.sizeOf_spec]
  omega

/-- The files yielded by a sorted walk rooted at `t`, as paths relative to
`t` (the root directory itself is filtered out as a directory; a root that
is itself a file is yielded with an empty relative path). -/
def walkTop : FSEntry → List (List String)
  | .file _ => [[]]
  | .dir _ cs => ((sortByName cs).map walkPaths).flatten

/-- A full scan of a directory tree: sorted walk, then classification. -/
def scanTree (suffixes : PythonModuleSuffixes) (t : FSEntry) :
    Except String (List PythonFileResource) :=
  scan suffixes (walkTop t)

/-- Recursively canonicalize a tree by sorting every children list: the
canonical form is independent of the enumeration order the walker's sort
removes. -/
def canonEntry : FSEntry → FSEntry
  | .file n => .file n
  | .dir n cs => .dir n (sortByName (cs.attach.map (fun c => canonEntry c.1)))
termination_by e => sizeOf e
decreasing_by
  have h3 := List.sizeOf_lt_of_mem c.2
  simp only [FSEntry.dir.sizeOf_spec]
  omega

/-- Order-preserving path listing (no sorting): the walk of an already
canonical tree. -/
def plainPaths : FSEntry → List (List String)
  | .file n => [[n]]
  | .dir n cs =>
    ((cs.attach.map (fun c => (plainPaths c.1).map (fun p => n :: p)))).flatten
termination_by e => sizeOf e
decreasing_by
  have h3 := List.sizeOf_lt_of_mem c.2
  simp only [FSEntry.dir.sizeOf_spec]
  omega

def plainTop : FSEntry → List (List String)
  | .file _ => [[]]
  | .dir _ cs => (cs.map plainPaths).flatten

theorem entryName_canon (e : FSEntry) : entryName (canonEntry e) = entryName e := by
  cases e with
  | file n => simp [canonEntry, entryName]
  | dir n cs => simp [canonEntry, entryName]

theorem insertByName_map_canon (e : FSEntry) (l : List FSEntry) :
    insertByName (canonEntry e) (l.map canonEntry) =
      (insertByName e l).map canonEntry := by
  induction l with
  | nil => rfl
  | cons a as ih =>
    simp only [List.map_cons, insertByName, entryName_canon]
    split
    · simp [ih]
    · simp

theorem sortByName_map_canon (l : List FSEntry) :
    sortByName (l.map canonEntry) = (sortByName l).map canonEntry := by
  induction l with
  | nil => rfl
  | cons a as ih =>
    simp only [List.map_cons, sortByName, ih, insertByName_map_canon]

theorem attach_map_eq_map {α β : Type} (l : List α) (f : α → β) :
    l.attach.map (fun c => f c.1) = l.map f := by
  rw [← List.attach_map_coe l f]

theorem walkPaths_dir (n : String) (cs : List FSEntry) :
    walkPaths (.dir n cs) =
      ((sortByName cs).map (fun c => (walkPaths c).map (fun p => n :: p))).flatten := by
  rw [walkPaths]
  exact congrArg List.flatten
    (attach_map_eq_map (sortByName cs) (fun c => (walkPaths c).map (fun p => n :: p)))

theorem plainPaths_dir (n : String) (cs : List FSEntry) :
    plainPaths (.dir n cs) =
      (cs.map (fun c => (plainPaths c).map (fun p => n :: p))).flatten := by
  rw [plainPaths]
  exact congrArg List.flatten
    (attach_map_eq_map cs (fun c => (plainPaths c).map (fun p => n :: p)))

theorem canonEntry_dir (n : String) (cs : List FSEntry) :
    canonEntry (.dir n cs) = .dir n (sortByName (cs.map canonEntry)) := by
  rw [canonEntry]
  exact congrArg (FSEntry.dir n) (congrArg sortByName (attach_map_eq_map cs canonEntry))

/-- The sorted walk of a tree is the order-preserving walk of its canonical
form: sorting every children list during the walk is the same as
canonicalizing first. -/
theorem walkPaths_eq_plain (t : FSEntry) : walkPaths t = plainPaths (canonEntry t) := by
  cases t with
  | file n => simp [walkPaths, plainPaths, canonEntry]
  | dir n cs =>
    rw [walkPaths_dir, canonEntry_dir, plainPaths_dir, sortByName_map_canon,
      List.map_map]
    refine congrArg List.flatten (List.map_congr_left ?_)
    intro c hc
    simp only [Function.comp]
    rw [walkPaths_eq_plain c]
termination_by sizeOf t
decreasing_by
  have h3 := List.sizeOf_lt_of_mem (mem_sortByName _ _ hc)
  simp only [FSEntry.dir.sizeOf_spec]
  omega

theorem walkTop_eq_plainTop (t : FSEntry) : walkTop t = plainTop (canonEntry t) := by
  cases t with
  | file n => simp [walkTop, plainTop, canonEntry]
  | dir n cs =>
    rw [canonEntry_dir]
    simp only [walkTop, plainTop]
    rw [sortByName_map_canon, List.map_map]
    refine congrArg List.flatten (List.map_congr_left ?_)
    intro c hc
    simp only [Function.comp]
    rw [walkPaths_eq_plain c]

/-- Claim C8: two scans over the same unchanged directory tree — the same
canonical tree, however the operating system happens to order each
directory's children — produce the same walked entry sequence and the same
classified output sequence. -/
theorem c8_deterministic (suffixes : PythonModuleSuffixes) (t1 t2 : FSEntry)
    (h : canonEntry t1 = canonEntry t2) :
    walkTop t1 = walkTop t2 ∧
    scanTree suffixes t1 = scanTree suffixes t2 := by
  have hw : walkTop t1 = walkTop t2 := by
    rw [walkTop_eq_plainTop, walkTop_eq_plainTop, h]
  exact ⟨hw, by simp only [scanTree, hw]⟩

theorem c8_witness :
    walkTop (.dir "r" [.file "b", .file "a"]) =
      walkTop (.dir "r" [.file "a", .file "b"]) ∧
    scanTree emptySuffixes (.dir "r" [.file "b", .file "a"]) =
      scanTree emptySuffixes (.dir "r" [.file "a", .file "b"]) :=
  c8_deterministic emptySuffixes (.dir "r" [.file "b", .file "a"])
    (.dir "r" [.file "a", .file "b"])
    (by simp [canonEntry, canonEntry_dir, sortByName, insertByName, entryName,
      strLt, charListLt])

end FsScan
